import Mathlib

/-!
Verification development for the model-construction stage of shacl2code
(`src/shacl2code/model.py`).  Python strings are modelled as Lean `String`
(whose kernel representation is a list of characters); where character-level
recursion is needed we work on `List Char`.  The RDF graph consumed through
the rdflib facade is modelled as a finite list of subject/predicate/object
triples; rdflib graphs are triple sets, so theorems that need distinctness
take a `Nodup` hypothesis on the triple list.
-/

namespace Shacl2code

/-- Pairwise merge step of `common_prefix` (the `for idx in range(len(p1))`
loop of `model.py` lines 33-40): returns the longest common prefix of two
character lists.  The Python loop returns `p2` when `p2` is exhausted first,
`p2[:idx]` on the first mismatch and `p1` when `p1` is exhausted; at the
level of the accumulated common part all three cases stop the recursion. -/
def lcp2 : List Char → List Char → List Char
  | [], _ => []
  | _ :: _, [] => []
  | a :: as, b :: bs => if a = b then a :: lcp2 as bs else []

/-- Function `common_prefix(*s)` from `model.py` lines 24-40: recursive halving of the
argument list, merging the two halves with the pairwise loop (`lcp2`). -/
def common_prefix : List (List Char) → List Char
  | [] => []
  | [s] => s
  | a :: b :: rest =>
      lcp2 ( common_prefix ((a :: b :: rest).take ((a :: b :: rest).length / 2)))
        ( common_prefix ((a :: b :: rest).drop ((a :: b :: rest).length / 2)))
termination_by l => l.length
decreasing_by
  · simp [List.length_take]
    omega
  · simp
    omega

/-- Function `remove_common_prefix(val, *cmp)` from `model.py` lines 43-45, at its
two-argument use sites: drop the longest common prefix of `val` and `cmp`
from the front of `val`.  The source computes `common_prefix(val, cmp)`;
the theorem `remove_common_prefix_spec` below shows this definition (phrased
with the pairwise merge `lcp2` so that it evaluates by kernel reduction)
agrees with it. -/
def remove_common_prefix (val : String) (cmp : String) : String :=
  String.mk (val.data.drop ((lcp2 val.data cmp.data).length))

/-- The simple linear left-to-right pairwise reduction of the two-string
longest-common-prefix operation, which §4.2 of the spec asserts is equivalent
to the recursive-halving `common_prefix`. -/
def linred : List (List Char) → List Char
  | [] => []
  | x :: xs => xs.foldl lcp2 x

/-- Predicate: `p` is the longest prefix shared by all strings of `l`. -/
def isLCP (p : List Char) (l : List (List Char)) : Prop :=
  (∀ s ∈ l, p <+: s) ∧ ∀ q, (∀ s ∈ l, q <+: s) → q <+: p

/-- Boolean lexicographic comparison on character lists, agreeing with the
linear order on `String` (Python's `sort` order); used to give the sorting
calls of the source a decidability instance that evaluates by kernel
reduction. -/
def lexLe : List Char → List Char → Bool
  | [], _ => true
  | _ :: _, [] => false
  | a :: as, b :: bs => if a = b then lexLe as bs else decide (a < b)

/-- Kernel-reducible decidability of `≤` on `String`, passed explicitly to
every `insertionSort` below. -/
def decStrLe : DecidableRel (fun a b : String => a ≤ b) := fun a b =>
  decidable_of_iff (lexLe a.data b.data = true) (by
    have key : ∀ as bs : List Char, lexLe as bs = true ↔ ¬ List.Lex (· < ·) bs as := by
      intro as
      induction as with
      | nil =>
        intro bs
        exact iff_of_true rfl (List.Lex.not_nil_right _ bs)
      | cons a as ih =>
        intro bs
        cases bs with
        | nil =>
          exact iff_of_false (fun h => Bool.noConfusion h) (fun hn => hn List.Lex.nil)
        | cons b bs =>
          by_cases hab : a = b
          · subst hab
            rw [show lexLe (a :: as) (a :: bs) = lexLe as bs from by simp [lexLe]]
            rw [List.Lex.cons_iff]
            exact ih bs
          · rw [show lexLe (a :: as) (b :: bs) = decide (a < b) from by simp [lexLe, hab]]
            constructor
            · intro h hlex
              have hab2 : a < b := of_decide_eq_true h
              cases hlex with
              | rel hr => exact absurd hab2 (lt_asymm hr)
              | cons ht => exact absurd rfl hab
            · intro hn
              rcases lt_trichotomy a b with hlt | heq | hgt
              · exact decide_eq_true hlt
              · exact absurd heq hab
              · exact absurd (List.Lex.rel hgt) hn
    rw [key a.data b.data]
    exact (not_congr String.lt_iff_toList_lt).symm)

/-- Ascending sort of a list of strings (Python `list.sort()` on `str`). -/
def sort_strings (l : List String) : List String :=
  @List.insertionSort String (fun a b => a ≤ b) decStrLe l

/-! ## Data model (`model.py` lines 48-97) -/

/-- The `EnumValue` dataclass (`model.py` lines 48-52). -/
structure EnumValue where
  _id : String
  varname : String
  comment : String := ""
deriving DecidableEq

/-- The `Enum` dataclass (`model.py` lines 55-60). -/
structure Enum where
  _id : String
  clsname : String
  values : List EnumValue
  comment : String := ""
deriving DecidableEq

/-- The `Property` dataclass (`model.py` lines 63-73).  `max_count`/`min_count`
are optional integers; the four range fields default to the empty string. -/
structure Property where
  path : String
  varname : String
  comment : String := ""
  max_count : Option Int := none
  min_count : Option Int := none
  enum_id : String := ""
  class_id : String := ""
  datatype : String := ""
  pattern : String := ""
deriving DecidableEq

/-- The `Class` dataclass (`model.py` lines 76-85).  `id_property` is `None` or a
string in the source (`str_val`), hence an `Option`. -/
structure Class where
  _id : String
  clsname : String
  parent_ids : List String
  derived_ids : List String
  properties : List Property
  comment : String := ""
  id_property : Option String := none
  refable : String := "optional"
deriving DecidableEq

/-- The aggregate IR produced by `Model.__init__`: ordered enums and the
dependency-ordered class list. -/
structure Model where
  enums : List Enum
  classes : List Class
deriving DecidableEq

/-- Exception type `ModelException` (`model.py` line 20), with one constructor per raise
site, carrying the data interpolated into the source's message strings. -/
inductive ModelException where
  | unknownReferenceable (cls val : String)
  | unknownClassRestriction (prop range_id : String)
  | missingRange (prop : String)
deriving DecidableEq

deriving instance DecidableEq for Except

/-! ## Graph query facade

rdflib's `Graph` is a set of subject/predicate/object triples; `subjects`,
`objects` iterate matching triples and `value` returns the object of the
first matching triple (or a default).  IRIs and literals are modelled as
strings. -/

abbrev Triple := String × String × String

abbrev Graph := List Triple

def RDF_type : String := "rdf:type"

def OWL_Class : String := "owl:Class"

def OWL_NamedIndividual : String := "owl:NamedIndividual"

def RDFS_subClassOf : String := "rdfs:subClassOf"

def RDFS_comment : String := "rdfs:comment"

def RDFS_label : String := "rdfs:label"

def RDFS_range : String := "rdfs:range"

def SH_property : String := "sh:property"

def SH_path : String := "sh:path"

def SH_name : String := "sh:name"

def SH_class : String := "sh:class"

def SH_datatype : String := "sh:datatype"

def SH_pattern : String := "sh:pattern"

def SH_minCount : String := "sh:minCount"

def SH_maxCount : String := "sh:maxCount"

def SPDXS_referenceable : String := "spdxs:referenceable"

def SPDXS_idPropertyName : String := "spdxs:idPropertyName"

/-- Query `graph.subjects(p, o)`: subjects of all triples with predicate `p` and
object `o`. -/
def subjects (g : Graph) (p o : String) : List String :=
  (g.filter fun t => t.2.1 == p && t.2.2 == o).map fun t => t.1

/-- Query `graph.objects(s, p)`: objects of all triples with subject `s` and
predicate `p`. -/
def objects (g : Graph) (s p : String) : List String :=
  (g.filter fun t => t.1 == s && t.2.1 == p).map fun t => t.2.2

/-- Query `graph.value(s, p)`: the object of the first matching triple, if any. -/
def value (g : Graph) (s p : String) : Option String :=
  (objects g s p).head?

/-- Python truthiness of an optional string-valued graph lookup, as used by
the walrus-operator guards (`if range_id := ...`) and `int_val`: `None` and
the empty string are falsy. -/
def truthy : Option String → Option String
  | none => none
  | some s => if s = "" then none else some s

/-! ## Name resolver (`model.py` lines 246-263) -/

/-- Method `Model.get_compact_id` (`model.py` lines 246-257) with the
`self.compact_ids` cache made an explicit association list.  On a miss the
compaction is computed and cached; if the cached compaction equals the
identifier and a fallback is supplied, the fallback is returned (the cache
entry is left as is). -/
def get_compact_id (compact : String → String) (cache : List (String × String))
    (_id : String) (fallback : Option String) : String × List (String × String) :=
  let cache2 := match cache.lookup _id with
    | some _ => cache
    | none => (_id, compact _id) :: cache
  let v := (cache2.lookup _id).getD ("")
  match fallback with
  | some fb => if v = _id then (fb, cache2) else (v, cache2)
  | none => (v, cache2)

/-- Cacheless value of `get_compact_id` for a pure `compact` function; the
theorem `get_compact_id_pure` shows the cached version always returns this,
so the construction below is phrased with `compact_pure`. -/
def compact_pure (compact : String → String) (_id : String)
    (fallback : Option String) : String :=
  match fallback with
  | some fb => if compact _id = _id then fb else compact _id
  | none => compact _id

/-- A cache maps every stored identifier to its compaction (the invariant of
`self.compact_ids`). -/
def cacheFaithful (compact : String → String)
    (cache : List (String × String)) : Prop :=
  ∀ k v, cache.lookup k = some v → v = compact k

/-- Method `Model.get_class_name` (`model.py` lines 259-263): the compacted name
with the namespace separator `:` replaced by `_` (a single-character
`str.replace`, i.e. a character map). -/
def get_class_name (compact : String → String) (c : String) : String :=
  String.mk ((compact_pure compact c none).data.map fun ch =>
    if ch = ':' then '_' else ch)

/-! ## Classifier and enum extractor (`model.py` lines 100-132) -/

/-- Instances of `cls` that are explicitly asserted to be named individuals
(the inner loop of lines 103-105). -/
def named_individuals (g : Graph) (cls : String) : List String :=
  (subjects g RDF_type cls).filter fun v =>
    decide ((v, RDF_type, OWL_NamedIndividual) ∈ g)

/-- The enum values collected for `cls` in declaration order (lines 107-118),
before the `enum_values.sort` call. -/
def enum_values_raw (g : Graph) (cls : String) : List EnumValue :=
  (named_individuals g cls).map fun v =>
    { _id := v
      varname := (value g v RDFS_label).getD ( remove_common_prefix v cls)
      comment := (value g v RDFS_comment).getD ("") }

/-- Test `if enum_values:` (line 120): a declared class is an enumeration iff it
has at least one named-individual instance. -/
def is_enum (g : Graph) (cls : String) : Bool :=
  !(enum_values_raw g cls).isEmpty

/-- The set `class_iris` (structural classes), in declaration order. -/
def class_iris (g : Graph) : List String :=
  (subjects g RDF_type OWL_Class).filter fun c => !is_enum g c

/-- The set `enum_iris`, in declaration order. -/
def enum_iris (g : Graph) : List String :=
  (subjects g RDF_type OWL_Class).filter fun c => is_enum g c

/-- The `Enum` records built at lines 120-129 (values sorted ascending by
id), before the final `self.enums.sort` at line 226. -/
def build_enums (compact : String → String) (g : Graph) : List Enum :=
  (enum_iris g).map fun cls =>
    { _id := cls
      clsname := get_class_name compact cls
      comment := (value g cls RDFS_comment).getD ("")
      values := @List.insertionSort EnumValue (fun a b => a._id ≤ b._id)
        (fun a b => decStrLe a._id b._id) (enum_values_raw g cls) }

/-! ## Property resolver (`model.py` lines 134-214) -/

/-- Helper `int_val` (lines 134-137): falsy values become `None`, anything else is
parsed as an integer. -/
def int_val (v : Option String) : Option Int :=
  (truthy v).bind fun s => s.toInt?

/-- The range-resolution chain of `Model.__init__` (lines 185-212), returning
the four range fields `(enum_id, class_id, datatype, pattern)` of the
property or the error raised.  `prop` is only used in error messages. -/
def resolve_range (eIris cIris : List String) (prop : String)
    (shClass shDatatype shPattern propRange : Option String) :
    Except ModelException (String × String × String × String) :=
  match truthy shClass with
  | some range_id =>
    if range_id ∈ eIris then .ok (range_id, "", "", "")
    else if range_id ∈ cIris then .ok ("", range_id, "", "")
    else .error (.unknownClassRestriction prop range_id)
  | none =>
    match truthy shDatatype with
    | some range_id => .ok ("", "", range_id, (truthy shPattern).getD (""))
    | none =>
      match truthy propRange with
      | some range_id =>
        if range_id ∈ eIris then .ok (range_id, "", "", "")
        else if range_id ∈ cIris then .ok ("", range_id, "", "")
        else .ok ("", "", range_id, "")
      | none => .error (.missingRange prop)

/-- One `Property` record from a shape node `obj` on class `cls`
(lines 167-214). -/
def build_property (compact : String → String) (g : Graph)
    (eIris cIris : List String) (cls obj : String) :
    Except ModelException Property :=
  let prop := (value g obj SH_path).getD ("")
  match resolve_range eIris cIris prop (value g obj SH_class)
      (value g obj SH_datatype) (value g obj SH_pattern)
      (value g prop RDFS_range) with
  | .error e => .error e
  | .ok (e_id, c_id, dt, pat) =>
    .ok { path := prop
          varname := (value g obj SH_name).getD
            (compact_pure compact prop (some ( remove_common_prefix prop cls)))
          comment := (value g prop RDFS_comment).getD ("")
          max_count := int_val (value g obj SH_maxCount)
          min_count := int_val (value g obj SH_minCount)
          enum_id := e_id
          class_id := c_id
          datatype := dt
          pattern := pat }

/-- The property loop of lines 167-214, first error wins. -/
def build_props (compact : String → String) (g : Graph)
    (eIris cIris : List String) (cls : String) :
    List String → Except ModelException (List Property)
  | [] => .ok []
  | o :: os =>
    match build_property compact g eIris cIris cls o with
    | .error e => .error e
    | .ok p =>
      match build_props compact g eIris cIris cls os with
      | .error e => .error e
      | .ok ps => .ok (p :: ps)

/-- The closed set of admissible `referenceable` values (line 162). -/
def refable_values : List String := ["no", "local", "optional", "yes", "always"]

/-! ## Class builder (`model.py` lines 144-217) -/

/-- One `Class` record for a structural class iri (lines 144-216): metadata
and parents are read, the `refable` check of lines 162-165 runs before the
property loop. -/
def build_class (compact : String → String) (g : Graph)
    (eIris cIris : List String) (cls : String) :
    Except ModelException Class :=
  let refable := (value g cls SPDXS_referenceable).getD ("optional")
  if refable ∈ refable_values then
    match build_props compact g eIris cIris cls (objects g cls SH_property) with
    | .error e => .error e
    | .ok props =>
      .ok { _id := cls
            clsname := get_class_name compact cls
            parent_ids := (objects g cls RDFS_subClassOf).filter fun p =>
              decide (p ∈ cIris)
            derived_ids := []
            properties := props
            comment := (value g cls RDFS_comment).getD ("")
            id_property := value g cls SPDXS_idPropertyName
            refable := refable }
  else .error (.unknownReferenceable cls refable)

/-- The `for cls_iri in class_iris` loop (lines 144-217), first error wins. -/
def build_classes (compact : String → String) (g : Graph)
    (eIris cIris : List String) :
    List String → Except ModelException (List Class)
  | [] => .ok []
  | c :: cs =>
    match build_class compact g eIris cIris c with
    | .error e => .error e
    | .ok k =>
      match build_classes compact g eIris cIris cs with
      | .error e => .error e
      | .ok ks => .ok (k :: ks)

/-! ## Derived-class backlinks (`model.py` lines 219-224) -/

/-- The `derived_ids` accumulated for the class with id `pid` by the loop at
lines 219-221: one entry `c._id` per occurrence of `pid` in `c.parent_ids`,
in class order. -/
def derived_for (classes : List Class) (pid : String) : List String :=
  classes.flatMap fun c => (c.parent_ids.filter fun p => p == pid).map fun _ => c._id

/-- Backlink computation plus the per-class `derived_ids.sort()` of
lines 223-224. -/
def add_derived (classes : List Class) : List Class :=
  classes.map fun c =>
    { c with derived_ids := sort_strings (derived_for classes c._id) }

/-- Sorting step `self.classes.sort(key=lambda c: c._id)` (line 227). -/
def sort_classes (l : List Class) : List Class :=
  @List.insertionSort Class (fun a b => a._id ≤ b._id)
    (fun a b => decStrLe a._id b._id) l

/-- Sorting step `self.enums.sort(key=lambda e: e._id)` (line 226). -/
def sort_enums (l : List Enum) : List Enum :=
  @List.insertionSort Enum (fun a b => a._id ≤ b._id)
    (fun a b => decStrLe a._id b._id) l

/-- Everything of `Model.__init__` before the dependency-ordering loop:
classification, enum extraction, class building (first error aborts), the
derived backlinks and both sorts. -/
def build_all (compact : String → String) (g : Graph) :
    Except ModelException (List Enum × List Class) :=
  match build_classes compact g (enum_iris g) (class_iris g) (class_iris g) with
  | .error e => .error e
  | .ok cs => .ok (sort_enums (build_enums compact g), sort_classes (add_derived cs))

/-! ## Dependency orderer (`model.py` lines 229-244) -/

/-- The requeue-based ordering loop, with explicit fuel: pop the front class;
if all its parents are done append it to the output and record its id,
otherwise push it to the back of the queue.  `none` means the fuel ran out
with a non-empty queue (the Python loop is still running). -/
def order_loop (fuel : Nat) (queue : List Class) (done_ids : List String)
    (out : List Class) : Option (List Class) :=
  match queue with
  | [] => some out
  | c :: rest =>
    match fuel with
    | 0 => none
    | fuel + 1 =>
      if c.parent_ids.all fun p => decide (p ∈ done_ids) then
        order_loop fuel rest (c._id :: done_ids) (out ++ [c])
      else
        order_loop fuel (rest ++ [c]) done_ids out

/-- The whole of `Model.__init__`: `.ok none` means the ordering loop was
still running when the fuel ran out. -/
def build_model (compact : String → String) (g : Graph) (fuel : Nat) :
    Except ModelException (Option Model) :=
  match build_all compact g with
  | .error e => .error e
  | .ok (es, cs) =>
    match order_loop fuel cs [] [] with
    | none => .ok none
    | some out => .ok (some { enums := es, classes := out })

/-- The parent relation induced by a list of classes: `parentR q p c` holds
when some class of `q` has id `c` and lists `p` among its parents. -/
def parentR (q : List Class) (p c : String) : Prop :=
  ∃ cl ∈ q, cl._id = c ∧ p ∈ cl.parent_ids

/-- The strongly-connected cycle through `x` in the parent relation: `y` lies
on it when `y` is `x` itself or is both reachable from `x` and reaches `x`. -/
def cycleSet (q0 : List Class) (x y : String) : Prop :=
  y = x ∨ (Relation.TransGen (parentR q0) x y ∧ Relation.TransGen (parentR q0) y x)

/-- Exactly one of the three range fields of a property is populated
non-empty, and a pattern is only present together with a datatype. -/
def range_fields_ok (p : Property) : Prop :=
  ((p.enum_id ≠ "" ∧ p.class_id = "" ∧ p.datatype = "") ∨
    (p.enum_id = "" ∧ p.class_id ≠ "" ∧ p.datatype = "") ∨
    (p.enum_id = "" ∧ p.class_id = "" ∧ p.datatype ≠ "")) ∧
  (p.pattern ≠ "" → p.datatype ≠ "")

/-! ## Concrete inputs used by witnesses and counterexamples -/

/-- Identity compaction (a context that shortens nothing). -/
def cmpId : String → String := fun s => s

/-- Two structural classes, `B` derived from `A`. -/
def gB : Graph :=
  [("A", RDF_type, OWL_Class), ("B", RDF_type, OWL_Class),
    ("B", RDFS_subClassOf, "A")]

/-- A class declared as its own superclass. -/
def gSelf : Graph :=
  [("A", RDF_type, OWL_Class), ("A", RDFS_subClassOf, "A")]

/-- A class with a property shape whose range is missing. -/
def gMR : Graph :=
  [("A", RDF_type, OWL_Class), ("A", SH_property, "s1"), ("s1", SH_path, "p")]

/-- A class with a string-typed, patterned property shape. -/
def gD : Graph :=
  [("A", RDF_type, OWL_Class), ("A", SH_property, "s1"),
    ("s1", SH_path, "p"), ("s1", SH_datatype, "xsd:string"),
    ("s1", SH_pattern, "[a-z]+")]

/-- An enumeration class with two named individuals, referenced by a
property shape of a structural class. -/
def gE : Graph :=
  [("x:Color", RDF_type, OWL_Class),
    ("x:red", RDF_type, "x:Color"), ("x:red", RDF_type, OWL_NamedIndividual),
    ("x:green", RDF_type, "x:Color"), ("x:green", RDF_type, OWL_NamedIndividual),
    ("A", RDF_type, OWL_Class), ("A", SH_property, "s1"),
    ("s1", SH_path, "p"), ("s1", SH_class, "x:Color")]

/-- The model built from `gB`. -/
def mB : Model :=
  match build_model cmpId gB 10 with
  | .ok (some m) => m
  | _ => { enums := [], classes := [] }

/-- The model built from `gD`. -/
def mD : Model :=
  match build_model cmpId gD 10 with
  | .ok (some m) => m
  | _ => { enums := [], classes := [] }

/-- A class that lists itself as parent (used for the cyclic queue). -/
def selfClass : Class :=
  { _id := "A", clsname := "A", parent_ids := ["A"], derived_ids := [],
    properties := [] }

/-- A parentless class. -/
def soleClass : Class :=
  { _id := "A", clsname := "A", parent_ids := [], derived_ids := [],
    properties := [] }

/-- The enums and classes built from `gB`. -/
def prB : List Enum × List Class :=
  match build_all cmpId gB with
  | .ok pr => pr
  | .error _ => ([], [])

/-- The enums and classes built from `gE`. -/
def prE : List Enum × List Class :=
  match build_all cmpId gE with
  | .ok pr => pr
  | .error _ => ([], [])

/-- The enums and classes built from `gSelf`. -/
def prSelf : List Enum × List Class :=
  match build_all cmpId gSelf with
  | .ok pr => pr
  | .error _ => ([], [])

end Shacl2code

namespace Shacl2code

theorem lcp2_nil_right : ∀ a : List Char, lcp2 a [] = [] := by
  intro a
  cases a <;> rfl

theorem lcp2_assoc (a b c : List Char) :
    lcp2 (lcp2 a b) c = lcp2 a (lcp2 b c) := by
  induction a generalizing b c with
  | nil => rfl
  | cons x as ih =>
    cases b with
    | nil => rfl
    | cons y bs =>
      cases c with
      | nil => simp [lcp2_nil_right]
      | cons z cs =>
        by_cases hxy : x = y
        · subst hxy
          by_cases hyz : x = z
          · subst hyz
            simp [lcp2, ih]
          · simp [lcp2, hyz, lcp2_nil_right]
        · by_cases hyz : y = z
          · subst hyz
            simp [lcp2, hxy]
          · simp [lcp2, hxy, hyz]

theorem lcp2_prefix_left : ∀ a b : List Char, lcp2 a b <+: a := by
  intro a
  induction a with
  | nil => intro b; exact List.nil_prefix
  | cons x as ih =>
    intro b
    cases b with
    | nil => exact List.nil_prefix
    | cons y bs =>
      by_cases hxy : x = y
      · subst hxy
        simpa [lcp2, List.cons_prefix_cons] using ih bs
      · simp [lcp2, hxy]

theorem lcp2_prefix_right : ∀ a b : List Char, lcp2 a b <+: b := by
  intro a
  induction a with
  | nil => intro b; exact List.nil_prefix
  | cons x as ih =>
    intro b
    cases b with
    | nil => exact List.nil_prefix
    | cons y bs =>
      by_cases hxy : x = y
      · subst hxy
        simpa [lcp2, List.cons_prefix_cons] using ih bs
      · simp [lcp2, hxy]

theorem prefix_lcp2 : ∀ q a b : List Char, q <+: a → q <+: b → q <+: lcp2 a b := by
  intro q
  induction q with
  | nil => intro a b _ _; exact List.nil_prefix
  | cons x qs ih =>
    intro a b ha hb
    cases a with
    | nil => simp at ha
    | cons y as =>
      cases b with
      | nil => simp at hb
      | cons z bs =>
        rw [List.cons_prefix_cons] at ha hb
        obtain ⟨rfl, ha⟩ := ha
        obtain ⟨rfl, hb⟩ := hb
        simpa [lcp2, List.cons_prefix_cons] using ih as bs ha hb

theorem foldl_lcp2_assoc :
    ∀ (bs : List (List Char)) (x b : List Char),
      List.foldl lcp2 (lcp2 x b) bs = lcp2 x (List.foldl lcp2 b bs) := by
  intro bs
  induction bs with
  | nil => intro x b; rfl
  | cons c bs ih =>
    intro x b
    simp only [List.foldl_cons]
    rw [lcp2_assoc]
    exact ih x (lcp2 b c)

theorem linred_append (A B : List (List Char)) (hA : A ≠ []) (hB : B ≠ []) :
    linred (A ++ B) = lcp2 ( linred A) ( linred B) := by
  cases A with
  | nil => exact absurd rfl hA
  | cons a as =>
    cases B with
    | nil => exact absurd rfl hB
    | cons b bs =>
      show List.foldl lcp2 a (as ++ b :: bs) = _
      rw [List.foldl_append]
      simp only [List.foldl_cons]
      exact foldl_lcp2_assoc bs (List.foldl lcp2 a as) b

theorem common_prefix_eq_linred_aux :
    ∀ n (l : List (List Char)), l.length ≤ n → l ≠ [] →
      common_prefix l = linred l := by
  intro n
  induction n with
  | zero =>
    intro l hl hne
    cases l with
    | nil => exact absurd rfl hne
    | cons a as => simp at hl
  | succ n ih =>
    intro l hl hne
    match l with
    | [s] => rw [ common_prefix]; rfl
    | a :: b :: rest =>
      have hlen : (a :: b :: rest).length = rest.length + 2 := by simp
      have hTD := List.take_append_drop ((a :: b :: rest).length / 2) (a :: b :: rest)
      have hTlen : ((a :: b :: rest).take ((a :: b :: rest).length / 2)).length
          = (a :: b :: rest).length / 2 := by
        rw [List.length_take]
        omega
      have hDlen : ((a :: b :: rest).drop ((a :: b :: rest).length / 2)).length
          = (a :: b :: rest).length - (a :: b :: rest).length / 2 := by
        rw [List.length_drop]
      have hTne : (a :: b :: rest).take ((a :: b :: rest).length / 2) ≠ [] := by
        intro hc
        rw [hc] at hTlen
        simp at hTlen
        omega
      have hDne : (a :: b :: rest).drop ((a :: b :: rest).length / 2) ≠ [] := by
        intro hc
        rw [hc] at hDlen
        simp at hDlen
        omega
      have h1 : ((a :: b :: rest).take ((a :: b :: rest).length / 2)).length ≤ n := by
        rw [hTlen]
        simp at hl
        omega
      have h2 : ((a :: b :: rest).drop ((a :: b :: rest).length / 2)).length ≤ n := by
        rw [hDlen]
        simp at hl
        omega
      rw [show common_prefix (a :: b :: rest)
            = lcp2 ( common_prefix ((a :: b :: rest).take ((a :: b :: rest).length / 2)))
                ( common_prefix ((a :: b :: rest).drop ((a :: b :: rest).length / 2)))
          from by rw [ common_prefix]]
      rw [ih _ h1 hTne, ih _ h2 hDne, ← linred_append _ _ hTne hDne, hTD]

/-- Evaluating `common_prefix` on a two-element list gives the pairwise merge. -/
theorem common_prefix_pair (a b : List Char) : common_prefix [a, b] = lcp2 a b := by
  have h := common_prefix_eq_linred_aux 2 [a, b] (by simp) (by simp)
  rw [h]
  rfl

/-- The executable `remove_common_prefix` agrees with the source's
`val[len(common_prefix(val, cmp)):]`. -/
theorem remove_common_prefix_spec (val cmp : String) :
    remove_common_prefix val cmp
      = String.mk (val.data.drop (( common_prefix [val.data, cmp.data]).length)) := by
  rw [ remove_common_prefix, common_prefix_pair]

theorem foldl_lcp2_prefix_acc :
    ∀ (xs : List (List Char)) (a : List Char), List.foldl lcp2 a xs <+: a := by
  intro xs
  induction xs with
  | nil => intro a; exact List.prefix_refl a
  | cons x xs ih =>
    intro a
    exact (ih (lcp2 a x)).trans (lcp2_prefix_left a x)

theorem foldl_lcp2_prefix_mem :
    ∀ (xs : List (List Char)) (a s : List Char), s ∈ xs → List.foldl lcp2 a xs <+: s := by
  intro xs
  induction xs with
  | nil => intro a s hs; simp at hs
  | cons x xs ih =>
    intro a s hs
    rcases List.mem_cons.mp hs with rfl | hs
    · exact (foldl_lcp2_prefix_acc xs (lcp2 a s)).trans (lcp2_prefix_right a s)
    · exact ih (lcp2 a x) s hs

theorem foldl_lcp2_le :
    ∀ (xs : List (List Char)) (a q : List Char),
      q <+: a → (∀ s ∈ xs, q <+: s) → q <+: List.foldl lcp2 a xs := by
  intro xs
  induction xs with
  | nil => intro a q ha _; exact ha
  | cons x xs ih =>
    intro a q ha hs
    exact ih (lcp2 a x) q (prefix_lcp2 q a x ha (hs x (List.mem_cons_self x xs)))
      fun s hmem => hs s (List.mem_cons_of_mem x hmem)

/-- Claim C9: for every non-empty list of strings, the recursive-halving
`common_prefix` returns the same string as the linear left-to-right pairwise
reduction of the two-string longest-common-prefix operation, namely the
longest prefix shared by all the strings. -/
theorem common_prefix_correct (l : List (List Char)) (h : l ≠ []) :
    common_prefix l = linred l ∧ isLCP ( common_prefix l) l := by
  have he : common_prefix l = linred l :=
    common_prefix_eq_linred_aux l.length l (le_refl _) h
  refine ⟨he, ?_, ?_⟩
  · intro s hs
    rw [he]
    cases l with
    | nil => simp at hs
    | cons x xs =>
      rcases List.mem_cons.mp hs with rfl | hs
      · exact foldl_lcp2_prefix_acc xs s
      · exact foldl_lcp2_prefix_mem xs x s hs
  · intro q hq
    rw [he]
    cases l with
    | nil => exact absurd rfl h
    | cons x xs =>
      exact foldl_lcp2_le xs x q (hq x (List.mem_cons_self x xs))
        fun s hmem => hq s (List.mem_cons_of_mem x hmem)

/-! ## Dependency orderer: permutation and topological order (C10, C1) -/

theorem order_loop_perm :
    ∀ (fuel : Nat) (q : List Class) (d : List String) (out res : List Class),
      order_loop fuel q d out = some res → res.Perm (out ++ q) := by
  intro fuel
  induction fuel with
  | zero =>
    intro q d out res h
    cases q with
    | nil =>
      simp [order_loop] at h
      subst h
      simp
    | cons c rest => simp [order_loop] at h
  | succ n ih =>
    intro q d out res h
    cases q with
    | nil =>
      simp [order_loop] at h
      subst h
      simp
    | cons c rest =>
      simp only [order_loop] at h
      by_cases hall : (c.parent_ids.all fun p => decide (p ∈ d)) = true
      · rw [if_pos hall] at h
        have hrec := ih rest (c._id :: d) (out ++ [c]) res h
        simpa [List.append_assoc] using hrec
      · rw [if_neg hall] at h
        have hrec := ih (rest ++ [c]) d out res h
        exact hrec.trans (List.Perm.append_left out (List.perm_append_singleton c rest))

/-- Claim C10: whenever the dependency-ordering loop terminates, the final
class list is a permutation of the classes that entered it — every class
appears exactly once, none dropped, none duplicated. -/
theorem order_loop_output_perm (fuel : Nat) (q res : List Class)
    (h : order_loop fuel q [] [] = some res) : res.Perm q := by
  simpa using order_loop_perm fuel q [] [] res h

/-- Witness for C10 at a concrete input. -/
theorem order_loop_output_perm_w :
    order_loop 1 [soleClass] [] [] = some [soleClass] ∧
    List.Perm [soleClass] [soleClass] :=
  ⟨rfl, order_loop_output_perm 1 [soleClass] [soleClass] rfl⟩

theorem order_loop_topo :
    ∀ (fuel : Nat) (q : List Class) (d : List String) (out res : List Class),
      order_loop fuel q d out = some res →
      (∀ x, x ∈ d ↔ x ∈ out.map fun c => c._id) →
      (∀ (j : Nat) (c : Class), out[j]? = some c → ∀ p ∈ c.parent_ids,
        ∃ i e, i < j ∧ out[i]? = some e ∧ e._id = p) →
      ∀ (j : Nat) (c : Class), res[j]? = some c → ∀ p ∈ c.parent_ids,
        ∃ i e, i < j ∧ res[i]? = some e ∧ e._id = p := by
  intro fuel
  induction fuel with
  | zero =>
    intro q d out res h hd htopo
    cases q with
    | nil =>
      simp [order_loop] at h
      subst h
      exact htopo
    | cons c rest => simp [order_loop] at h
  | succ n ih =>
    intro q d out res h hd htopo
    cases q with
    | nil =>
      simp [order_loop] at h
      subst h
      exact htopo
    | cons c rest =>
      simp only [order_loop] at h
      by_cases hall : (c.parent_ids.all fun p => decide (p ∈ d)) = true
      · rw [if_pos hall] at h
        apply ih rest (c._id :: d) (out ++ [c]) res h
        · intro x
          rw [List.mem_cons, hd x]
          rw [List.map_append, List.mem_append]
          simp [Or.comm]
        · intro j e hj p hp
          by_cases hlt : j < out.length
          · rw [List.getElem?_append_left hlt] at hj
            obtain ⟨i, e2, hij, hi, hid⟩ := htopo j e hj p hp
            exact ⟨i, e2, hij,
              by rw [List.getElem?_append_left (lt_trans hij hlt)]; exact hi, hid⟩
          · have hlen : j < (out ++ [c]).length :=
              (List.getElem?_eq_some_iff.mp hj).1
            have hjeq : j = out.length := by
              simp at hlen
              omega
            subst hjeq
            rw [List.getElem?_concat_length] at hj
            have hec : e = c := (Option.some.inj hj).symm
            subst hec
            have hpd : p ∈ d :=
              of_decide_eq_true (List.all_eq_true.mp hall p hp)
            have hpo : p ∈ out.map fun c => c._id := (hd p).mp hpd
            obtain ⟨e2, he2, hid⟩ := List.mem_map.mp hpo
            obtain ⟨i, hi⟩ := List.mem_iff_getElem?.mp he2
            have hilt : i < out.length := (List.getElem?_eq_some_iff.mp hi).1
            exact ⟨i, e2, hilt,
              by rw [List.getElem?_append_left hilt]; exact hi, hid⟩
      · rw [if_neg hall] at h
        exact ih (rest ++ [c]) d out res h hd htopo

/-- Claim C1: for every input graph on which construction terminates, the
final ordered class list is a valid topological order — each parent id of
each emitted class is the id of a class at a strictly earlier position. -/
theorem build_model_topo_order (compact : String → String) (g : Graph)
    (fuel : Nat) (m : Model) (h : build_model compact g fuel = .ok (some m)) :
    ∀ (j : Nat) (c : Class), m.classes[j]? = some c → ∀ p ∈ c.parent_ids,
      ∃ i e, i < j ∧ m.classes[i]? = some e ∧ e._id = p := by
  unfold build_model at h
  cases hba : build_all compact g with
  | error e =>
    rw [hba] at h
    simp at h
  | ok pr =>
    obtain ⟨es, cs⟩ := pr
    rw [hba] at h
    cases hol : order_loop fuel cs [] [] with
    | none =>
      simp [hol] at h
    | some out =>
      simp [hol] at h
      have hcl : m.classes = out := by rw [← h]
      rw [hcl]
      exact order_loop_topo fuel cs [] [] out hol (by simp)
        (by intro j c hj; simp at hj)

/-- Witness for C1 at a concrete input. -/
theorem build_model_topo_order_w :
    build_model cmpId gB 10 = .ok (some mB) ∧
    (∀ (j : Nat) (c : Class), mB.classes[j]? = some c → ∀ p ∈ c.parent_ids,
      ∃ i e, i < j ∧ mB.classes[i]? = some e ∧ e._id = p) :=
  ⟨by decide, build_model_topo_order cmpId gB 10 mB (by decide)⟩

/-! ## Dependency orderer: termination (C2) -/

/-- If the parent graph is acyclic, a non-empty queue whose classes are drawn
from `q0` and whose unsatisfied parents are all still queued contains a class
all of whose parents are done. -/
theorem exists_emittable (q0 : List Class)
    (hacyc : ∀ x, ¬ Relation.TransGen (parentR q0) x x)
    (q : List Class) (d : List String) (hne : q ≠ [])
    (hsub : ∀ c ∈ q, c ∈ q0)
    (hcl : ∀ c ∈ q, ∀ p ∈ c.parent_ids, p ∈ d ∨ ∃ e ∈ q, e._id = p) :
    ∃ m ∈ q, ∀ p ∈ m.parent_ids, p ∈ d := by
  let r : {x : String // x ∈ q0.map fun c => c._id} →
      {x : String // x ∈ q0.map fun c => c._id} → Prop :=
    fun a b => Relation.TransGen (parentR q0) a.1 b.1
  haveI : IsTrans _ r := ⟨fun a b c hab hbc => hab.trans hbc⟩
  haveI : IsIrrefl _ r := ⟨fun a ha => hacyc a.1 ha⟩
  have hwf : WellFounded r := Finite.wellFounded_of_trans_of_irrefl r
  obtain ⟨c0, hc0⟩ : ∃ c, c ∈ q := by
    cases q with
    | nil => exact absurd rfl hne
    | cons c rest => exact ⟨c, List.mem_cons_self c rest⟩
  have hSne : {a : {x : String // x ∈ q0.map fun c => c._id} |
      ∃ e ∈ q, e._id = a.1}.Nonempty :=
    ⟨⟨c0._id, List.mem_map.mpr ⟨c0, hsub c0 hc0, rfl⟩⟩, c0, hc0, rfl⟩
  obtain ⟨mv, hmS, hmin⟩ := hwf.has_min _ hSne
  obtain ⟨e, heq, heid⟩ := hmS
  refine ⟨e, heq, ?_⟩
  intro p hp
  rcases hcl e heq p hp with hpd | ⟨e2, he2q, he2id⟩
  · exact hpd
  · exfalso
    have hpid : p ∈ q0.map fun c => c._id :=
      List.mem_map.mpr ⟨e2, hsub e2 he2q, he2id⟩
    have hrel : parentR q0 p mv.1 := ⟨e, hsub e heq, heid, hp⟩
    exact hmin ⟨p, hpid⟩ ⟨e2, he2q, he2id⟩ (Relation.TransGen.single hrel)

/-- If the queue holds an emittable class at index `k`, one round of the loop
makes progress: termination reduces to termination from a strictly shorter
queue. -/
theorem order_loop_term_step (q0 : List Class) :
    ∀ (k : Nat) (q : List Class) (d : List String) (out : List Class),
      (∀ c ∈ q, c ∈ q0) →
      (∀ c ∈ q, ∀ p ∈ c.parent_ids, p ∈ d ∨ ∃ e ∈ q, e._id = p) →
      (∃ m, q[k]? = some m ∧ ∀ p ∈ m.parent_ids, p ∈ d) →
      (∀ (q2 : List Class) (d2 : List String) (out2 : List Class),
        q2.length + 1 = q.length →
        (∀ c ∈ q2, c ∈ q0) →
        (∀ c ∈ q2, ∀ p ∈ c.parent_ids, p ∈ d2 ∨ ∃ e ∈ q2, e._id = p) →
        ∃ fuel res, order_loop fuel q2 d2 out2 = some res) →
      ∃ fuel res, order_loop fuel q d out = some res := by
  intro k
  induction k with
  | zero =>
    intro q d out hsub hcl hm hsh
    obtain ⟨m, hm0, hmp⟩ := hm
    cases q with
    | nil => simp at hm0
    | cons c rest =>
      have hcm : c = m := by simpa using hm0
      subst hcm
      have hall : (c.parent_ids.all fun p => decide (p ∈ d)) = true := by
        rw [List.all_eq_true]
        intro p hp
        exact decide_eq_true (hmp p hp)
      have hpre : ∀ c2 ∈ rest, ∀ p ∈ c2.parent_ids,
          p ∈ (c._id :: d) ∨ ∃ e ∈ rest, e._id = p := by
        intro c2 h2 p hp
        rcases hcl c2 (List.mem_cons_of_mem c h2) p hp with hpd | ⟨e, he, hid⟩
        · exact Or.inl (List.mem_cons_of_mem _ hpd)
        · rcases List.mem_cons.mp he with rfl | he2
          · exact Or.inl (by rw [← hid]; exact List.mem_cons_self _ _)
          · exact Or.inr ⟨e, he2, hid⟩
      obtain ⟨fuel, res, hrun⟩ := hsh rest (c._id :: d) (out ++ [c]) (by simp)
        (fun c2 h2 => hsub c2 (List.mem_cons_of_mem c h2)) hpre
      refine ⟨fuel + 1, res, ?_⟩
      simp only [order_loop]
      rw [if_pos hall]
      exact hrun
  | succ k ihk =>
    intro q d out hsub hcl hm hsh
    obtain ⟨m, hmk, hmp⟩ := hm
    cases q with
    | nil => simp at hmk
    | cons c rest =>
      by_cases hall : (c.parent_ids.all fun p => decide (p ∈ d)) = true
      · have hpre : ∀ c2 ∈ rest, ∀ p ∈ c2.parent_ids,
            p ∈ (c._id :: d) ∨ ∃ e ∈ rest, e._id = p := by
          intro c2 h2 p hp
          rcases hcl c2 (List.mem_cons_of_mem c h2) p hp with hpd | ⟨e, he, hid⟩
          · exact Or.inl (List.mem_cons_of_mem _ hpd)
          · rcases List.mem_cons.mp he with rfl | he2
            · exact Or.inl (by rw [← hid]; exact List.mem_cons_self _ _)
            · exact Or.inr ⟨e, he2, hid⟩
        obtain ⟨fuel, res, hrun⟩ := hsh rest (c._id :: d) (out ++ [c]) (by simp)
          (fun c2 h2 => hsub c2 (List.mem_cons_of_mem c h2)) hpre
        refine ⟨fuel + 1, res, ?_⟩
        simp only [order_loop]
        rw [if_pos hall]
        exact hrun
      · have h1 : rest[k]? = some m := by simpa using hmk
        have hk : k < rest.length := (List.getElem?_eq_some_iff.mp h1).1
        have hmk2 : (rest ++ [c])[k]? = some m := by
          rw [List.getElem?_append_left hk]
          exact h1
        have hsub2 : ∀ c2 ∈ rest ++ [c], c2 ∈ q0 := by
          intro c2 h2
          rcases List.mem_append.mp h2 with h2 | h2
          · exact hsub c2 (List.mem_cons_of_mem c h2)
          · rw [List.mem_singleton.mp h2]
            exact hsub c (List.mem_cons_self c rest)
        have hcl2 : ∀ c2 ∈ rest ++ [c], ∀ p ∈ c2.parent_ids,
            p ∈ d ∨ ∃ e ∈ rest ++ [c], e._id = p := by
          intro c2 h2 p hp
          have h2q : c2 ∈ c :: rest := by
            rcases List.mem_append.mp h2 with h2 | h2
            · exact List.mem_cons_of_mem c h2
            · rw [List.mem_singleton.mp h2]
              exact List.mem_cons_self c rest
          rcases hcl c2 h2q p hp with hpd | ⟨e, he, hid⟩
          · exact Or.inl hpd
          · refine Or.inr ⟨e, ?_, hid⟩
            rcases List.mem_cons.mp he with rfl | he2
            · exact List.mem_append.mpr (Or.inr (List.mem_singleton.mpr rfl))
            · exact List.mem_append.mpr (Or.inl he2)
        obtain ⟨fuel, res, hrun⟩ := ihk (rest ++ [c]) d out hsub2 hcl2
          ⟨m, hmk2, hmp⟩ (fun q2 d2 out2 hl2 a b =>
            hsh q2 d2 out2 (by simpa using hl2) a b)
        refine ⟨fuel + 1, res, ?_⟩
        simp only [order_loop]
        rw [if_neg hall]
        exact hrun

/-- On an acyclic parent graph the requeue loop terminates for some fuel. -/
theorem order_loop_terminates (q0 : List Class)
    (hacyc : ∀ x, ¬ Relation.TransGen (parentR q0) x x) :
    ∀ (n : Nat) (q : List Class) (d : List String) (out : List Class),
      q.length = n →
      (∀ c ∈ q, c ∈ q0) →
      (∀ c ∈ q, ∀ p ∈ c.parent_ids, p ∈ d ∨ ∃ e ∈ q, e._id = p) →
      ∃ fuel res, order_loop fuel q d out = some res := by
  intro n
  induction n using Nat.strong_induction_on with
  | _ n ihn =>
    intro q d out hlen hsub hcl
    cases hq : q with
    | nil => exact ⟨0, out, by simp [order_loop]⟩
    | cons c rest =>
      subst hq
      obtain ⟨m, hmq, hmp⟩ := exists_emittable q0 hacyc (c :: rest) d
        (by simp) hsub hcl
      obtain ⟨k, hk⟩ := List.mem_iff_getElem?.mp hmq
      apply order_loop_term_step q0 k (c :: rest) d out hsub hcl ⟨m, hk, hmp⟩
      intro q2 d2 out2 hl2 hsub2 hcl2
      have hlt : q2.length < n := by
        simp at hl2
        simp at hlen
        omega
      exact ihn q2.length hlt q2 d2 out2 rfl hsub2 hcl2

/-- Every member of the cycle through `x` is the id of a class of `q0` and
has a parent that is again on the cycle. -/
theorem cycleSet_step (q0 : List Class) (x : String)
    (hx : Relation.TransGen (parentR q0) x x) :
    ∀ y, cycleSet q0 x y →
      ∃ p cl, cl ∈ q0 ∧ cl._id = y ∧ p ∈ cl.parent_ids ∧ cycleSet q0 x p := by
  intro y hy
  rcases hy with rfl | ⟨hxy, hyx⟩
  · obtain ⟨b, hrt, hb⟩ := Relation.TransGen.tail'_iff.mp hx
    obtain ⟨cl, hclq, hclid, hbp⟩ := hb
    refine ⟨b, cl, hclq, hclid, hbp, ?_⟩
    rcases Relation.reflTransGen_iff_eq_or_transGen.mp hrt with heq | htg
    · exact Or.inl heq
    · exact Or.inr ⟨htg, Relation.TransGen.single ⟨cl, hclq, hclid, hbp⟩⟩
  · obtain ⟨b, hrt, hb⟩ := Relation.TransGen.tail'_iff.mp hxy
    obtain ⟨cl, hclq, hclid, hbp⟩ := hb
    refine ⟨b, cl, hclq, hclid, hbp, ?_⟩
    rcases Relation.reflTransGen_iff_eq_or_transGen.mp hrt with heq | htg
    · exact Or.inl heq
    · exact Or.inr ⟨htg, Relation.TransGen.head ⟨cl, hclq, hclid, hbp⟩ hyx⟩

/-- With distinct class ids, once the parent relation has a cycle whose
members are all queued and none done, the loop never drains the queue. -/
theorem order_loop_cycle_none (q0 : List Class)
    (hnd : (q0.map fun c => c._id).Nodup)
    (x : String) (hx : Relation.TransGen (parentR q0) x x) :
    ∀ (fuel : Nat) (q : List Class) (d : List String) (out : List Class),
      (∀ c ∈ q, c ∈ q0) →
      (∀ y, cycleSet q0 x y → ∃ e ∈ q, e._id = y) →
      (∀ y, cycleSet q0 x y → y ∉ d) →
      order_loop fuel q d out = none := by
  have hinj : ∀ a ∈ q0, ∀ b ∈ q0, a._id = b._id → a = b :=
    List.inj_on_of_nodup_map hnd
  intro fuel
  induction fuel with
  | zero =>
    intro q d out hsub hw hdn
    obtain ⟨e, heq, _⟩ := hw x (Or.inl rfl)
    cases q with
    | nil => simp at heq
    | cons c rest => simp [order_loop]
  | succ n ih =>
    intro q d out hsub hw hdn
    obtain ⟨e0, he0, _⟩ := hw x (Or.inl rfl)
    cases q with
    | nil => simp at he0
    | cons c rest =>
      simp only [order_loop]
      by_cases hall : (c.parent_ids.all fun p => decide (p ∈ d)) = true
      · rw [if_pos hall]
        have hcS : ¬ cycleSet q0 x c._id := by
          intro hcs
          obtain ⟨p, cl, hclq, hclid, hpp, hpS⟩ := cycleSet_step q0 x hx c._id hcs
          have hceq : cl = c :=
            hinj cl hclq c (hsub c (List.mem_cons_self c rest)) hclid
          have hpc : p ∈ c.parent_ids := hceq ▸ hpp
          have hpd : p ∈ d := of_decide_eq_true (List.all_eq_true.mp hall p hpc)
          exact hdn p hpS hpd
        apply ih rest (c._id :: d) (out ++ [c])
        · intro c2 h2
          exact hsub c2 (List.mem_cons_of_mem c h2)
        · intro y hy
          obtain ⟨e, he, hid⟩ := hw y hy
          rcases List.mem_cons.mp he with rfl | he2
          · rw [← hid] at hy
            exact absurd hy hcS
          · exact ⟨e, he2, hid⟩
        · intro y hy hyd
          rcases List.mem_cons.mp hyd with heq | hyd2
          · rw [heq] at hy
            exact hcS hy
          · exact hdn y hy hyd2
      · rw [if_neg hall]
        apply ih (rest ++ [c]) d out
        · intro c2 h2
          rcases List.mem_append.mp h2 with h2 | h2
          · exact hsub c2 (List.mem_cons_of_mem c h2)
          · rw [List.mem_singleton.mp h2]
            exact hsub c (List.mem_cons_self c rest)
        · intro y hy
          obtain ⟨e, he, hid⟩ := hw y hy
          refine ⟨e, ?_, hid⟩
          rcases List.mem_cons.mp he with rfl | he2
          · exact List.mem_append.mpr (Or.inr (List.mem_singleton.mpr rfl))
          · exact List.mem_append.mpr (Or.inl he2)
        · exact hdn

/-- Claim C2: with every parent id of a queued class being the id of some
queued class (as the construction guarantees) and class ids distinct, the
requeue-based ordering loop terminates — some fuel drains the queue — if and
only if the parent relation is acyclic; on any cycle, including a class
listing itself as a parent, it loops forever (no fuel suffices). -/
theorem order_loop_terminates_iff (q : List Class)
    (hnd : (q.map fun c => c._id).Nodup)
    (hcl : ∀ c ∈ q, ∀ p ∈ c.parent_ids, ∃ e ∈ q, e._id = p) :
    (∃ fuel res, order_loop fuel q [] [] = some res) ↔
      ∀ x, ¬ Relation.TransGen (parentR q) x x := by
  constructor
  · rintro ⟨fuel, res, hrun⟩ x hx
    have hnone := order_loop_cycle_none q hnd x hx fuel q [] []
      (fun c hc => hc)
      (fun y hy => by
        obtain ⟨p, cl, hclq, hclid, _, _⟩ := cycleSet_step q x hx y hy
        exact ⟨cl, hclq, hclid⟩)
      (fun y _ hyd => by simp at hyd)
    rw [hrun] at hnone
    exact Option.noConfusion hnone
  · intro hacyc
    exact order_loop_terminates q hacyc q.length q [] [] rfl (fun c hc => hc)
      (fun c hc p hp => Or.inr (hcl c hc p hp))

/-- Witness for C2 at a concrete input (a self-parenting class). -/
theorem order_loop_terminates_iff_w :
    ((([selfClass] : List Class).map fun c => c._id).Nodup ∧
      (∀ c ∈ ([selfClass] : List Class), ∀ p ∈ c.parent_ids,
        ∃ e ∈ ([selfClass] : List Class), e._id = p)) ∧
    ((∃ fuel res, order_loop fuel [selfClass] [] [] = some res) ↔
      ∀ x, ¬ Relation.TransGen (parentR [selfClass]) x x) :=
  ⟨⟨by decide, by decide⟩, order_loop_terminates_iff [selfClass] (by decide) (by decide)⟩

/-! ## Name resolver: the compaction cache (C7) -/

theorem get_compact_id_hit_none (compact : String → String)
    (cache : List (String × String)) (_id : String)
    (w : String) (hc : cache.lookup _id = some w) :
    get_compact_id compact cache _id none = (w, cache) := by
  simp [get_compact_id, hc]

theorem get_compact_id_hit_some (compact : String → String)
    (cache : List (String × String)) (_id f : String)
    (w : String) (hc : cache.lookup _id = some w) :
    get_compact_id compact cache _id (some f)
      = if w = _id then (f, cache) else (w, cache) := by
  simp [get_compact_id, hc]

theorem get_compact_id_miss_none (compact : String → String)
    (cache : List (String × String)) (_id : String)
    (hc : cache.lookup _id = none) :
    get_compact_id compact cache _id none
      = (compact _id, (_id, compact _id) :: cache) := by
  simp [get_compact_id, hc, List.lookup]

theorem get_compact_id_miss_some (compact : String → String)
    (cache : List (String × String)) (_id f : String)
    (hc : cache.lookup _id = none) :
    get_compact_id compact cache _id (some f)
      = if compact _id = _id
          then (f, (_id, compact _id) :: cache)
          else (compact _id, (_id, compact _id) :: cache) := by
  simp [get_compact_id, hc, List.lookup]

theorem cacheFaithful_cons (compact : String → String)
    (cache : List (String × String)) (_id : String)
    (h : cacheFaithful compact cache) :
    cacheFaithful compact ((_id, compact _id) :: cache) := by
  intro k v hkv
  by_cases hk : k = _id
  · subst hk
    simp [List.lookup] at hkv
    exact hkv.symm
  · have hbk : (k == _id) = false := beq_eq_false_iff_ne.mpr hk
    simp only [List.lookup, hbk] at hkv
    exact h k v hkv

/-- With a pure `compact`, the cached `get_compact_id` returns the cacheless
`compact_pure` value and keeps the cache faithful. -/
theorem get_compact_id_pure (compact : String → String)
    (cache : List (String × String)) (_id : String) (fb : Option String)
    (h : cacheFaithful compact cache) :
    (get_compact_id compact cache _id fb).1 = compact_pure compact _id fb ∧
    cacheFaithful compact (get_compact_id compact cache _id fb).2 := by
  cases hc : cache.lookup _id with
  | some w =>
    have hw : w = compact _id := h _ _ hc
    subst hw
    cases fb with
    | none =>
      rw [get_compact_id_hit_none compact cache _id _ hc]
      exact ⟨rfl, h⟩
    | some f =>
      rw [get_compact_id_hit_some compact cache _id f _ hc]
      by_cases hw2 : compact _id = _id
      · rw [if_pos hw2]
        exact ⟨by simp [compact_pure, hw2], h⟩
      · rw [if_neg hw2]
        exact ⟨by simp [compact_pure, hw2], h⟩
  | none =>
    have hf2 := cacheFaithful_cons compact cache _id h
    cases fb with
    | none =>
      rw [get_compact_id_miss_none compact cache _id hc]
      exact ⟨rfl, hf2⟩
    | some f =>
      rw [get_compact_id_miss_some compact cache _id f hc]
      by_cases hw2 : compact _id = _id
      · rw [if_pos hw2]
        exact ⟨by simp [compact_pure, hw2], hf2⟩
      · rw [if_neg hw2]
        exact ⟨by simp [compact_pure, hw2], hf2⟩

/-- After a call, the cache maps the identifier to its compaction. -/
theorem get_compact_id_cache_entry (compact : String → String)
    (cache : List (String × String)) (_id : String) (fb : Option String)
    (h : cacheFaithful compact cache) :
    ((get_compact_id compact cache _id fb).2).lookup _id = some (compact _id) := by
  cases hc : cache.lookup _id with
  | some w =>
    have hw : w = compact _id := h _ _ hc
    subst hw
    cases fb with
    | none =>
      rw [get_compact_id_hit_none compact cache _id _ hc]
      exact hc
    | some f =>
      rw [get_compact_id_hit_some compact cache _id f _ hc]
      by_cases hw2 : compact _id = _id
      · rw [if_pos hw2]; exact hc
      · rw [if_neg hw2]; exact hc
  | none =>
    have hl : ((_id, compact _id) :: cache).lookup _id = some (compact _id) := by
      simp [List.lookup]
    cases fb with
    | none =>
      rw [get_compact_id_miss_none compact cache _id hc]
      exact hl
    | some f =>
      rw [get_compact_id_miss_some compact cache _id f hc]
      by_cases hw2 : compact _id = _id
      · rw [if_pos hw2]; exact hl
      · rw [if_neg hw2]; exact hl

/-- Claim C7 (amended): `get_compact_id` computes the compaction at most once
per identifier and caches it, so a repeated call with the same identifier and
the same fallback argument returns the identical result and leaves the cache
unchanged; when compaction returns the identifier unchanged and a fallback is
supplied, the fallback is returned, but the cache entry remains the unchanged
identifier (not the fallback), and the returned value always equals the
cacheless `compact_pure`. -/
theorem get_compact_id_caching (compact : String → String)
    (cache : List (String × String)) (_id : String) (fb : Option String)
    (h : cacheFaithful compact cache) :
    get_compact_id compact (get_compact_id compact cache _id fb).2 _id fb
        = get_compact_id compact cache _id fb ∧
    ((get_compact_id compact cache _id fb).2).lookup _id = some (compact _id) ∧
    (∀ f, fb = some f → compact _id = _id →
      (get_compact_id compact cache _id fb).1 = f) ∧
    (get_compact_id compact cache _id fb).1 = compact_pure compact _id fb := by
  have hpure := get_compact_id_pure compact cache _id fb h
  have hentry := get_compact_id_cache_entry compact cache _id fb h
  refine ⟨?_, hentry, ?_, hpure.1⟩
  · have h2 : (get_compact_id compact cache _id fb).2 = cache ∨
        (get_compact_id compact cache _id fb).2 = (_id, compact _id) :: cache := by
      cases hc : cache.lookup _id with
      | some w =>
        left
        cases fb with
        | none => rw [get_compact_id_hit_none compact cache _id _ hc]
        | some f =>
          rw [get_compact_id_hit_some compact cache _id f _ hc]
          by_cases hw2 : w = _id
          · rw [if_pos hw2]
          · rw [if_neg hw2]
      | none =>
        right
        cases fb with
        | none => rw [get_compact_id_miss_none compact cache _id hc]
        | some f =>
          rw [get_compact_id_miss_some compact cache _id f hc]
          by_cases hw2 : compact _id = _id
          · rw [if_pos hw2]
          · rw [if_neg hw2]
    have hres : (get_compact_id compact cache _id fb).1
        = compact_pure compact _id fb := hpure.1
    have hfe : cacheFaithful compact (get_compact_id compact cache _id fb).2 :=
      hpure.2
    have hpure2 := get_compact_id_pure compact
      (get_compact_id compact cache _id fb).2 _id fb hfe
    have hsnd : (get_compact_id compact
        (get_compact_id compact cache _id fb).2 _id fb).2
        = (get_compact_id compact cache _id fb).2 := by
      cases fb with
      | none =>
        rw [get_compact_id_hit_none compact _ _id _ hentry]
      | some f =>
        rw [get_compact_id_hit_some compact _ _id f _ hentry]
        by_cases hw2 : compact _id = _id
        · rw [if_pos hw2]
        · rw [if_neg hw2]
    have hfst : (get_compact_id compact
        (get_compact_id compact cache _id fb).2 _id fb).1
        = (get_compact_id compact cache _id fb).1 := by
      rw [hpure2.1, hres]
    exact Prod.ext hfst hsnd
  · intro f hf hw2
    subst hf
    rw [hpure.1]
    simp [compact_pure, hw2]

/-- Witness for C7 at a concrete input. -/
theorem get_compact_id_caching_w :
    cacheFaithful (fun s => String.mk (s.data.take 1)) [] ∧
    (get_compact_id (fun s => String.mk (s.data.take 1))
        (get_compact_id (fun s => String.mk (s.data.take 1)) [] "cd"
          (some ("fb"))).2 ("cd") (some ("fb"))
      = get_compact_id (fun s => String.mk (s.data.take 1)) [] "cd"
          (some ("fb")) ∧
    ((get_compact_id (fun s => String.mk (s.data.take 1)) [] "cd"
        (some ("fb"))).2).lookup ("cd") = some ("c") ∧
    (∀ f, (some ("fb") : Option String) = some f →
      String.mk (("cd" : String).data.take 1) = "cd" →
      (get_compact_id (fun s => String.mk (s.data.take 1)) [] "cd"
          (some ("fb"))).1 = f) ∧
    (get_compact_id (fun s => String.mk (s.data.take 1)) [] "cd"
        (some ("fb"))).1
      = compact_pure (fun s => String.mk (s.data.take 1)) "cd" (some ("fb"))) :=
  ⟨fun k v hkv => by simp [List.lookup] at hkv,
    get_compact_id_caching _ [] "cd" (some ("fb"))
      fun k v hkv => by simp [List.lookup] at hkv⟩

/-- Counterexample for C7 as stated: with the identity compaction, a first
call with identifier `"x"` and fallback `"fb"` returns `"fb"`, but a second
call with the same identifier (no fallback) returns `"x"`, not the cached
fallback — the fallback is not cached in place of the identifier, and two
calls with the same identifier need not return the same result. -/
theorem get_compact_id_fallback_cex :
    (get_compact_id (fun s => s) [] "x" (some ("fb"))).1 = "fb" ∧
    (get_compact_id (fun s => s)
        (get_compact_id (fun s => s) [] "x" (some ("fb"))).2 ("x") none).1 = "x" ∧
    ("x" : String) ≠ "fb" := by
  refine ⟨rfl, rfl, by decide⟩

/-! ## Property resolver precedence (C3) -/

theorem truthy_ne_empty (v : Option String) (s : String) (h : truthy v = some s) :
    s ≠ "" := by
  cases v with
  | none => simp [truthy] at h
  | some t =>
    by_cases ht : t = ""
    · simp [truthy, ht] at h
    · simp [truthy, ht] at h
      subst h
      exact ht

/-- Claim C3: strict precedence of range resolution.  With the enumeration
and structural id sets disjoint: a truthy shape class restriction yields an
enum reference for a known enumeration id, a class reference for a known
structural class id, and the fatal unknown-class-restriction error otherwise;
failing that, a truthy shape datatype yields that datatype with the shape's
pattern when one is asserted and no pattern otherwise; failing that, a truthy
property range resolves to enum reference, class reference, or a pattern-less
datatype for any other value; and when nothing applies the fatal
missing-range error is raised. -/
theorem resolve_range_precedence (eIris cIris : List String) (prop : String)
    (shClass shDatatype shPattern propRange : Option String)
    (hdisj : ∀ x, x ∈ eIris → x ∉ cIris) :
    (∀ rid, truthy shClass = some rid →
      (rid ∈ eIris →
        resolve_range eIris cIris prop shClass shDatatype shPattern propRange
          = .ok (rid, "", "", "")) ∧
      (rid ∈ cIris →
        resolve_range eIris cIris prop shClass shDatatype shPattern propRange
          = .ok ("", rid, "", "")) ∧
      (rid ∉ eIris → rid ∉ cIris →
        resolve_range eIris cIris prop shClass shDatatype shPattern propRange
          = .error (.unknownClassRestriction prop rid))) ∧
    (truthy shClass = none → ∀ rid, truthy shDatatype = some rid →
      (∀ pat, truthy shPattern = some pat →
        resolve_range eIris cIris prop shClass shDatatype shPattern propRange
          = .ok ("", "", rid, pat)) ∧
      (truthy shPattern = none →
        resolve_range eIris cIris prop shClass shDatatype shPattern propRange
          = .ok ("", "", rid, ""))) ∧
    (truthy shClass = none → truthy shDatatype = none →
      ∀ rid, truthy propRange = some rid →
      (rid ∈ eIris →
        resolve_range eIris cIris prop shClass shDatatype shPattern propRange
          = .ok (rid, "", "", "")) ∧
      (rid ∈ cIris →
        resolve_range eIris cIris prop shClass shDatatype shPattern propRange
          = .ok ("", rid, "", "")) ∧
      (rid ∉ eIris → rid ∉ cIris →
        resolve_range eIris cIris prop shClass shDatatype shPattern propRange
          = .ok ("", "", rid, ""))) ∧
    (truthy shClass = none → truthy shDatatype = none → truthy propRange = none →
      resolve_range eIris cIris prop shClass shDatatype shPattern propRange
        = .error (.missingRange prop)) := by
  refine ⟨?_, ?_, ?_, ?_⟩
  · intro rid hrid
    refine ⟨?_, ?_, ?_⟩
    · intro he
      simp [resolve_range, hrid, he]
    · intro hc
      have hne : rid ∉ eIris := fun he => hdisj rid he hc
      simp [resolve_range, hrid, hne, hc]
    · intro hne hnc
      simp [resolve_range, hrid, hne, hnc]
  · intro hc rid hd
    refine ⟨?_, ?_⟩
    · intro pat hpat
      simp [resolve_range, hc, hd, hpat]
    · intro hpat
      simp [resolve_range, hc, hd, hpat]
  · intro hc hd rid hr
    refine ⟨?_, ?_, ?_⟩
    · intro he
      simp [resolve_range, hc, hd, hr, he]
    · intro hce
      have hne : rid ∉ eIris := fun he => hdisj rid he hce
      simp [resolve_range, hc, hd, hr, hne, hce]
    · intro hne hnc
      simp [resolve_range, hc, hd, hr, hne, hnc]
  · intro hc hd hr
    simp [resolve_range, hc, hd, hr]

/-- Witness for C3 at concrete inputs. -/
theorem resolve_range_precedence_w :
    (∀ x, x ∈ (["E"] : List String) → x ∉ (["C"] : List String)) ∧
    ((∀ rid, truthy (some ("E")) = some rid →
      (rid ∈ (["E"] : List String) →
        resolve_range ["E"] ["C"] "p" (some ("E")) none none none
          = .ok (rid, "", "", "")) ∧
      (rid ∈ (["C"] : List String) →
        resolve_range ["E"] ["C"] "p" (some ("E")) none none none
          = .ok ("", rid, "", "")) ∧
      (rid ∉ (["E"] : List String) → rid ∉ (["C"] : List String) →
        resolve_range ["E"] ["C"] "p" (some ("E")) none none none
          = .error (.unknownClassRestriction ("p") rid))) ∧
    (truthy (some ("E")) = none → ∀ rid, truthy (none : Option String) = some rid →
      (∀ pat, truthy (none : Option String) = some pat →
        resolve_range ["E"] ["C"] "p" (some ("E")) none none none
          = .ok ("", "", rid, pat)) ∧
      (truthy (none : Option String) = none →
        resolve_range ["E"] ["C"] "p" (some ("E")) none none none
          = .ok ("", "", rid, ""))) ∧
    (truthy (some ("E")) = none → truthy (none : Option String) = none →
      ∀ rid, truthy (none : Option String) = some rid →
      (rid ∈ (["E"] : List String) →
        resolve_range ["E"] ["C"] "p" (some ("E")) none none none
          = .ok (rid, "", "", "")) ∧
      (rid ∈ (["C"] : List String) →
        resolve_range ["E"] ["C"] "p" (some ("E")) none none none
          = .ok ("", rid, "", "")) ∧
      (rid ∉ (["E"] : List String) → rid ∉ (["C"] : List String) →
        resolve_range ["E"] ["C"] "p" (some ("E")) none none none
          = .ok ("", "", rid, ""))) ∧
    (truthy (some ("E")) = none → truthy (none : Option String) = none →
      truthy (none : Option String) = none →
      resolve_range ["E"] ["C"] "p" (some ("E")) none none none
        = .error (.missingRange ("p")))) :=
  ⟨by decide, resolve_range_precedence ["E"] ["C"] "p" (some ("E")) none none none
    (by decide)⟩

/-! ## Build pipeline lemmas (towards C4, C5, C6, C8) -/

theorem resolve_range_ok_shape (eIris cIris : List String) (prop : String)
    (shClass shDatatype shPattern propRange : Option String)
    (ei ci dt pat : String)
    (h : resolve_range eIris cIris prop shClass shDatatype shPattern propRange
      = .ok (ei, ci, dt, pat)) :
    ((ei ≠ "" ∧ ci = "" ∧ dt = "" ∧ pat = "") ∨
      (ei = "" ∧ ci ≠ "" ∧ dt = "" ∧ pat = "") ∨
      (ei = "" ∧ ci = "" ∧ dt ≠ "")) ∧
    (pat ≠ "" → dt ≠ "") := by
  cases hc : truthy shClass with
  | some rid =>
    have hrne : rid ≠ "" := truthy_ne_empty _ _ hc
    by_cases he : rid ∈ eIris
    · simp [resolve_range, hc, he] at h
      obtain ⟨h1, h2, h3, h4⟩ := h
      subst h1; subst h2; subst h3; subst h4
      exact ⟨Or.inl ⟨hrne, rfl, rfl, rfl⟩, fun hp => absurd rfl hp⟩
    · by_cases hcc : rid ∈ cIris
      · simp [resolve_range, hc, he, hcc] at h
        obtain ⟨h1, h2, h3, h4⟩ := h
        subst h1; subst h2; subst h3; subst h4
        exact ⟨Or.inr (Or.inl ⟨rfl, hrne, rfl, rfl⟩), fun hp => absurd rfl hp⟩
      · simp [resolve_range, hc, he, hcc] at h
  | none =>
    cases hd : truthy shDatatype with
    | some rid =>
      have hrne : rid ≠ "" := truthy_ne_empty _ _ hd
      simp [resolve_range, hc, hd] at h
      obtain ⟨h1, h2, h3, h4⟩ := h
      subst h1; subst h2; subst h3; subst h4
      exact ⟨Or.inr (Or.inr ⟨rfl, rfl, hrne⟩), fun _ => hrne⟩
    | none =>
      cases hr : truthy propRange with
      | some rid =>
        have hrne : rid ≠ "" := truthy_ne_empty _ _ hr
        by_cases he : rid ∈ eIris
        · simp [resolve_range, hc, hd, hr, he] at h
          obtain ⟨h1, h2, h3, h4⟩ := h
          subst h1; subst h2; subst h3; subst h4
          exact ⟨Or.inl ⟨hrne, rfl, rfl, rfl⟩, fun hp => absurd rfl hp⟩
        · by_cases hcc : rid ∈ cIris
          · simp [resolve_range, hc, hd, hr, he, hcc] at h
            obtain ⟨h1, h2, h3, h4⟩ := h
            subst h1; subst h2; subst h3; subst h4
            exact ⟨Or.inr (Or.inl ⟨rfl, hrne, rfl, rfl⟩), fun hp => absurd rfl hp⟩
          · simp [resolve_range, hc, hd, hr, he, hcc] at h
            obtain ⟨h1, h2, h3, h4⟩ := h
            subst h1; subst h2; subst h3; subst h4
            exact ⟨Or.inr (Or.inr ⟨rfl, rfl, hrne⟩), fun _ => hrne⟩
      | none => simp [resolve_range, hc, hd, hr] at h

theorem resolve_range_error_shape (eIris cIris : List String) (prop : String)
    (shClass shDatatype shPattern propRange : Option String)
    (err : ModelException)
    (h : resolve_range eIris cIris prop shClass shDatatype shPattern propRange
      = .error err) :
    (∃ pr rid, err = .unknownClassRestriction pr rid) ∨
      ∃ pr, err = .missingRange pr := by
  cases hc : truthy shClass with
  | some rid =>
    by_cases he : rid ∈ eIris
    · simp [resolve_range, hc, he] at h
    · by_cases hcc : rid ∈ cIris
      · simp [resolve_range, hc, he, hcc] at h
      · simp [resolve_range, hc, he, hcc] at h
        exact Or.inl ⟨prop, rid, h.symm⟩
  | none =>
    cases hd : truthy shDatatype with
    | some rid => simp [resolve_range, hc, hd] at h
    | none =>
      cases hr : truthy propRange with
      | some rid =>
        by_cases he : rid ∈ eIris
        · simp [resolve_range, hc, hd, hr, he] at h
        · by_cases hcc : rid ∈ cIris
          · simp [resolve_range, hc, hd, hr, he, hcc] at h
          · simp [resolve_range, hc, hd, hr, he, hcc] at h
      | none =>
        simp [resolve_range, hc, hd, hr] at h
        exact Or.inr ⟨prop, h.symm⟩

theorem build_property_ok_range (compact : String → String) (g : Graph)
    (eIris cIris : List String) (cls obj : String) (p : Property)
    (h : build_property compact g eIris cIris cls obj = .ok p) :
    range_fields_ok p := by
  simp only [build_property] at h
  split at h
  · exact absurd h (by simp)
  · rename_i e_id c_id dt pat heq
    have hshape := resolve_range_ok_shape _ _ _ _ _ _ _ _ _ _ _ heq
    have hp := Except.ok.inj h
    rw [← hp]
    unfold range_fields_ok
    refine ⟨?_, hshape.2⟩
    rcases hshape.1 with ⟨h1, h2, h3, _⟩ | ⟨h1, h2, h3, _⟩ | ⟨h1, h2, h3⟩
    · exact Or.inl ⟨h1, h2, h3⟩
    · exact Or.inr (Or.inl ⟨h1, h2, h3⟩)
    · exact Or.inr (Or.inr ⟨h1, h2, h3⟩)

theorem build_property_error_shape (compact : String → String) (g : Graph)
    (eIris cIris : List String) (cls obj : String) (err : ModelException)
    (h : build_property compact g eIris cIris cls obj = .error err) :
    (∃ pr rid, err = .unknownClassRestriction pr rid) ∨
      ∃ pr, err = .missingRange pr := by
  simp only [build_property] at h
  split at h
  · rename_i e heq
    have he : e = err := Except.error.inj h
    rw [← he]
    exact resolve_range_error_shape _ _ _ _ _ _ _ _ heq
  · exact absurd h (by simp)

theorem build_props_mem (compact : String → String) (g : Graph)
    (eIris cIris : List String) (cls : String) :
    ∀ (os : List String) (ps : List Property),
      build_props compact g eIris cIris cls os = .ok ps →
      ∀ p ∈ ps, ∃ o ∈ os, build_property compact g eIris cIris cls o = .ok p := by
  intro os
  induction os with
  | nil =>
    intro ps h p hp
    simp [build_props] at h
    subst h
    simp at hp
  | cons o os ih =>
    intro ps h p hp
    unfold build_props at h
    split at h
    · exact absurd h (by simp)
    · rename_i p0 heq0
      split at h
      · exact absurd h (by simp)
      · rename_i ps0 heqs
        have hps : p0 :: ps0 = ps := Except.ok.inj h
        rw [← hps] at hp
        rcases List.mem_cons.mp hp with rfl | hp2
        · exact ⟨o, List.mem_cons_self o os, heq0⟩
        · obtain ⟨o2, ho2, hb2⟩ := ih ps0 heqs p hp2
          exact ⟨o2, List.mem_cons_of_mem o ho2, hb2⟩

theorem build_props_error_shape (compact : String → String) (g : Graph)
    (eIris cIris : List String) (cls : String) :
    ∀ (os : List String) (err : ModelException),
      build_props compact g eIris cIris cls os = .error err →
      (∃ pr rid, err = .unknownClassRestriction pr rid) ∨
        ∃ pr, err = .missingRange pr := by
  intro os
  induction os with
  | nil =>
    intro err h
    simp [build_props] at h
  | cons o os ih =>
    intro err h
    unfold build_props at h
    split at h
    · rename_i e heq
      have he : e = err := Except.error.inj h
      rw [← he]
      exact build_property_error_shape compact g eIris cIris cls o e heq
    · rename_i p0 heq0
      split at h
      · rename_i e heq
        have he : e = err := Except.error.inj h
        rw [← he]
        exact ih e heq
      · exact absurd h (by simp)

theorem build_class_ok (compact : String → String) (g : Graph)
    (eIris cIris : List String) (cls : String) (k : Class)
    (h : build_class compact g eIris cIris cls = .ok k) :
    k._id = cls ∧
    k.refable = (value g cls SPDXS_referenceable).getD ("optional") ∧
    k.refable ∈ refable_values ∧
    k.parent_ids = (objects g cls RDFS_subClassOf).filter
      (fun p => decide (p ∈ cIris)) ∧
    build_props compact g eIris cIris cls (objects g cls SH_property)
      = .ok k.properties := by
  simp only [build_class] at h
  by_cases href : ((value g cls SPDXS_referenceable).getD ("optional")) ∈ refable_values
  · rw [if_pos href] at h
    split at h
    · exact absurd h (by simp)
    · rename_i props heqp
      have hk := Except.ok.inj h
      rw [← hk]
      exact ⟨rfl, rfl, href, rfl, by rw [heqp]⟩
  · rw [if_neg href] at h
    exact absurd h (by simp)

theorem build_class_error (compact : String → String) (g : Graph)
    (eIris cIris : List String) (cls : String) (err : ModelException)
    (h : build_class compact g eIris cIris cls = .error err) :
    (err = .unknownReferenceable cls
        ((value g cls SPDXS_referenceable).getD ("optional")) ∧
      (value g cls SPDXS_referenceable).getD ("optional") ∉ refable_values) ∨
    ((∃ pr rid, err = .unknownClassRestriction pr rid) ∨
      ∃ pr, err = .missingRange pr) := by
  simp only [build_class] at h
  by_cases href : ((value g cls SPDXS_referenceable).getD ("optional")) ∈ refable_values
  · rw [if_pos href] at h
    split at h
    · rename_i e heq
      have he : e = err := Except.error.inj h
      rw [← he]
      exact Or.inr (build_props_error_shape compact g eIris cIris cls _ e heq)
    · exact absurd h (by simp)
  · rw [if_neg href] at h
    have he := Except.error.inj h
    exact Or.inl ⟨he.symm, href⟩

theorem build_class_bad_refable (compact : String → String) (g : Graph)
    (eIris cIris : List String) (cls : String)
    (hbad : (value g cls SPDXS_referenceable).getD ("optional") ∉ refable_values) :
    build_class compact g eIris cIris cls
      = .error (.unknownReferenceable cls
          ((value g cls SPDXS_referenceable).getD ("optional"))) := by
  simp only [build_class]
  rw [if_neg hbad]

theorem build_classes_mem (compact : String → String) (g : Graph)
    (eIris cIris : List String) :
    ∀ (cs : List String) (ks : List Class),
      build_classes compact g eIris cIris cs = .ok ks →
      ∀ k ∈ ks, ∃ c ∈ cs, build_class compact g eIris cIris c = .ok k := by
  intro cs
  induction cs with
  | nil =>
    intro ks h k hk
    simp [build_classes] at h
    subst h
    simp at hk
  | cons c cs ih =>
    intro ks h k hk
    unfold build_classes at h
    split at h
    · exact absurd h (by simp)
    · rename_i k0 heq0
      split at h
      · exact absurd h (by simp)
      · rename_i ks0 heqs
        have hks : k0 :: ks0 = ks := Except.ok.inj h
        rw [← hks] at hk
        rcases List.mem_cons.mp hk with rfl | hk2
        · exact ⟨c, List.mem_cons_self c cs, heq0⟩
        · obtain ⟨c2, hc2, hb2⟩ := ih ks0 heqs k hk2
          exact ⟨c2, List.mem_cons_of_mem c hc2, hb2⟩

theorem build_classes_ids (compact : String → String) (g : Graph)
    (eIris cIris : List String) :
    ∀ (cs : List String) (ks : List Class),
      build_classes compact g eIris cIris cs = .ok ks →
      ks.map (fun k => k._id) = cs := by
  intro cs
  induction cs with
  | nil =>
    intro ks h
    simp [build_classes] at h
    subst h
    rfl
  | cons c cs ih =>
    intro ks h
    unfold build_classes at h
    split at h
    · exact absurd h (by simp)
    · rename_i k0 heq0
      split at h
      · exact absurd h (by simp)
      · rename_i ks0 heqs
        have hks : k0 :: ks0 = ks := Except.ok.inj h
        rw [← hks]
        have hid := (build_class_ok compact g eIris cIris c k0 heq0).1
        simp [hid, ih ks0 heqs]

theorem build_classes_error_of_mem (compact : String → String) (g : Graph)
    (eIris cIris : List String) :
    ∀ (cs : List String) (c : String) (e : ModelException), c ∈ cs →
      build_class compact g eIris cIris c = .error e →
      ∃ e2, build_classes compact g eIris cIris cs = .error e2 := by
  intro cs
  induction cs with
  | nil =>
    intro c e hc
    simp at hc
  | cons c0 cs ih =>
    intro c e hc herr
    rcases List.mem_cons.mp hc with rfl | hc2
    · refine ⟨e, ?_⟩
      unfold build_classes
      rw [herr]
    · cases hb0 : build_class compact g eIris cIris c0 with
      | error e0 =>
        refine ⟨e0, ?_⟩
        unfold build_classes
        rw [hb0]
      | ok k0 =>
        obtain ⟨e2, he2⟩ := ih c e hc2 herr
        refine ⟨e2, ?_⟩
        unfold build_classes
        rw [hb0, he2]

theorem build_classes_error_mem (compact : String → String) (g : Graph)
    (eIris cIris : List String) :
    ∀ (cs : List String) (err : ModelException),
      build_classes compact g eIris cIris cs = .error err →
      ∃ c ∈ cs, build_class compact g eIris cIris c = .error err := by
  intro cs
  induction cs with
  | nil =>
    intro err h
    simp [build_classes] at h
  | cons c cs ih =>
    intro err h
    unfold build_classes at h
    split at h
    · rename_i e heq
      have he : e = err := Except.error.inj h
      exact ⟨c, List.mem_cons_self c cs, by rw [heq, he]⟩
    · rename_i k0 heq0
      split at h
      · rename_i e heq
        have he : e = err := Except.error.inj h
        obtain ⟨c2, hc2, hb2⟩ := ih e heq
        exact ⟨c2, List.mem_cons_of_mem c hc2, by rw [hb2, he]⟩
      · exact absurd h (by simp)

/-- Witness for C9 at a concrete input. -/
theorem common_prefix_correct_w :
    (([['a', 'b'], ['a', 'c']] : List (List Char)) ≠ []) ∧
    ( common_prefix [['a', 'b'], ['a', 'c']] = linred [['a', 'b'], ['a', 'c']] ∧
      isLCP ( common_prefix [['a', 'b'], ['a', 'c']]) [['a', 'b'], ['a', 'c']]) :=
  ⟨by decide, common_prefix_correct _ (by decide)⟩

/-! ## Build-all level lemmas and the remaining claims (C4, C5, C6, C8) -/

theorem mem_sort_classes (l : List Class) (k : Class) :
    k ∈ sort_classes l ↔ k ∈ l :=
  (@List.perm_insertionSort Class (fun a b => a._id ≤ b._id)
    (fun a b => decStrLe a._id b._id) l).mem_iff

theorem mem_sort_enums (l : List Enum) (e : Enum) :
    e ∈ sort_enums l ↔ e ∈ l :=
  (@List.perm_insertionSort Enum (fun a b => a._id ≤ b._id)
    (fun a b => decStrLe a._id b._id) l).mem_iff

theorem mem_sort_strings (l : List String) (y : String) :
    y ∈ sort_strings l ↔ y ∈ l :=
  (@List.perm_insertionSort String (fun a b => a ≤ b) decStrLe l).mem_iff

theorem sort_strings_sorted (l : List String) :
    List.Sorted (fun a b : String => a ≤ b) (sort_strings l) :=
  @List.sorted_insertionSort String (fun a b => a ≤ b) decStrLe
    inferInstance inferInstance l

theorem mem_add_derived (cs : List Class) (k : Class) :
    k ∈ add_derived cs ↔ ∃ k0 ∈ cs,
      { k0 with derived_ids := sort_strings (derived_for cs k0._id) } = k := by
  rw [add_derived]
  exact List.mem_map

theorem derived_for_mem (cs : List Class) (pid y : String) :
    y ∈ derived_for cs pid ↔ ∃ c ∈ cs, c._id = y ∧ pid ∈ c.parent_ids := by
  unfold derived_for
  rw [List.mem_flatMap]
  constructor
  · rintro ⟨c, hc, hy⟩
    rw [List.mem_map] at hy
    obtain ⟨a, ha, hay⟩ := hy
    rw [List.mem_filter] at ha
    have hpid : a = pid := by simpa using ha.2
    exact ⟨c, hc, hay, hpid ▸ ha.1⟩
  · rintro ⟨c, hc, hidy, hpp⟩
    refine ⟨c, hc, ?_⟩
    rw [List.mem_map]
    refine ⟨pid, ?_, hidy⟩
    rw [List.mem_filter]
    exact ⟨hpp, by simp⟩

theorem subjects_nodup (g : Graph) (hg : g.Nodup) (p o : String) :
    (subjects g p o).Nodup := by
  unfold subjects
  apply List.Nodup.map_on
  · intro t1 h1 t2 h2 heq
    rw [List.mem_filter] at h1 h2
    have e1 : t1.2.1 = p ∧ t1.2.2 = o := by simpa using h1.2
    have e2 : t2.2.1 = p ∧ t2.2.2 = o := by simpa using h2.2
    exact Prod.ext heq (Prod.ext (e1.1.trans e2.1.symm) (e1.2.trans e2.2.symm))
  · exact hg.filter _

theorem class_iris_nodup (g : Graph) (hg : g.Nodup) : (class_iris g).Nodup :=
  (subjects_nodup g hg RDF_type OWL_Class).filter _

theorem class_enum_disjoint (g : Graph) (x : String) (hc : x ∈ class_iris g)
    (he : x ∈ enum_iris g) : False := by
  rw [class_iris, List.mem_filter] at hc
  rw [enum_iris, List.mem_filter] at he
  have hb := hc.2
  rw [he.2] at hb
  simp at hb

theorem build_enums_ids (compact : String → String) (g : Graph) (e : Enum)
    (he : e ∈ build_enums compact g) : e._id ∈ enum_iris g := by
  unfold build_enums at he
  rw [List.mem_map] at he
  obtain ⟨cls, hcls, heq⟩ := he
  rw [← heq]
  exact hcls

theorem build_all_ok (compact : String → String) (g : Graph)
    (es : List Enum) (cs : List Class)
    (h : build_all compact g = .ok (es, cs)) :
    ∃ cs0, build_classes compact g (enum_iris g) (class_iris g) (class_iris g)
        = .ok cs0 ∧
      es = sort_enums (build_enums compact g) ∧
      cs = sort_classes (add_derived cs0) := by
  unfold build_all at h
  split at h
  · exact absurd h (by simp)
  · rename_i cs0 heq
    have hinj := Except.ok.inj h
    exact ⟨cs0, heq, (congrArg Prod.fst hinj).symm, (congrArg Prod.snd hinj).symm⟩

theorem build_all_mem_class (compact : String → String) (g : Graph)
    (es : List Enum) (cs : List Class)
    (h : build_all compact g = .ok (es, cs)) (k : Class) (hk : k ∈ cs) :
    k._id ∈ class_iris g ∧
    k.refable = (value g k._id SPDXS_referenceable).getD ("optional") ∧
    k.refable ∈ refable_values ∧
    k.parent_ids = (objects g k._id RDFS_subClassOf).filter
      (fun p => decide (p ∈ class_iris g)) ∧
    (∀ p ∈ k.properties, ∃ o,
      build_property compact g (enum_iris g) (class_iris g) k._id o = .ok p) := by
  obtain ⟨cs0, hbc, hes, hcs⟩ := build_all_ok compact g es cs h
  rw [hcs, mem_sort_classes, mem_add_derived] at hk
  obtain ⟨k0, hk0, heq⟩ := hk
  obtain ⟨cls, hcls, hbk⟩ := build_classes_mem compact g _ _ _ cs0 hbc k0 hk0
  obtain ⟨hid, href, hrefok, hpar, hprops⟩ :=
    build_class_ok compact g _ _ cls k0 hbk
  have hf1 : k._id = k0._id := by rw [← heq]
  have hf2 : k.refable = k0.refable := by rw [← heq]
  have hf3 : k.parent_ids = k0.parent_ids := by rw [← heq]
  have hf4 : k.properties = k0.properties := by rw [← heq]
  rw [hf1, hf2, hf3, hf4, hid]
  refine ⟨hcls, href, hrefok, hpar, ?_⟩
  intro p hp
  obtain ⟨o, _, hbo⟩ := build_props_mem compact g _ _ cls _ k0.properties hprops p hp
  exact ⟨o, hbo⟩

/-- Claim C8: every property of every class in a constructed model has
exactly one populated range field, and a pattern only together with a
datatype. -/
theorem model_range_fields_ok (compact : String → String) (g : Graph)
    (fuel : Nat) (m : Model) (h : build_model compact g fuel = .ok (some m)) :
    ∀ c ∈ m.classes, ∀ p ∈ c.properties, range_fields_ok p := by
  unfold build_model at h
  cases hba : build_all compact g with
  | error e =>
    rw [hba] at h
    simp at h
  | ok pr =>
    obtain ⟨es, cs⟩ := pr
    rw [hba] at h
    cases hol : order_loop fuel cs [] [] with
    | none => simp [hol] at h
    | some out =>
      simp [hol] at h
      have hcl : m.classes = out := by rw [← h]
      intro c hc p hp
      rw [hcl] at hc
      have hcs : c ∈ cs := by
        have := (order_loop_perm fuel cs [] [] out hol).mem_iff.mp hc
        simpa using this
      obtain ⟨_, _, _, _, hprop⟩ := build_all_mem_class compact g es cs hba c hcs
      obtain ⟨o, hbo⟩ := hprop p hp
      exact build_property_ok_range compact g _ _ _ o p hbo

/-- Witness for C8 at a concrete input. -/
theorem model_range_fields_ok_w :
    build_model cmpId gD 10 = .ok (some mD) ∧
    (∀ c ∈ mD.classes, ∀ p ∈ c.properties, range_fields_ok p) :=
  ⟨by decide, model_range_fields_ok cmpId gD 10 mD (by decide)⟩

/-- Claim C6 (amended): `parent_ids` of a constructed class never contains
the id of an enumeration class; it can, however, contain the class's own id
when the graph declares the class as its own superclass. -/
theorem parent_ids_no_enum (compact : String → String) (g : Graph)
    (es : List Enum) (cs : List Class)
    (h : build_all compact g = .ok (es, cs)) :
    ∀ c ∈ cs, ∀ e ∈ es, e._id ∉ c.parent_ids := by
  intro c hc e he hpe
  obtain ⟨_, _, _, hpar, _⟩ := build_all_mem_class compact g es cs h c hc
  rw [hpar, List.mem_filter] at hpe
  have hpc : e._id ∈ class_iris g := of_decide_eq_true hpe.2
  obtain ⟨cs0, hbc, hes, hcs⟩ := build_all_ok compact g es cs h
  have heIri : e._id ∈ enum_iris g := by
    rw [hes, mem_sort_enums] at he
    exact build_enums_ids compact g e he
  exact class_enum_disjoint g e._id hpc heIri

/-- Witness for C6 at a concrete input with a non-empty enum list. -/
theorem parent_ids_no_enum_w :
    build_all cmpId gE = .ok (prE.1, prE.2) ∧
    (∀ c ∈ prE.2, ∀ e ∈ prE.1, e._id ∉ c.parent_ids) :=
  ⟨by decide, parent_ids_no_enum cmpId gE prE.1 prE.2 (by decide)⟩

/-- Counterexample for C6 as stated: a class declared as its own superclass
ends up with its own id in `parent_ids` — the construction only filters out
ids that are not structural-class ids, never the class itself. -/
theorem parent_ids_self_cex :
    ∃ es cs, build_all cmpId gSelf = Except.ok (es, cs) ∧
      ∃ c ∈ cs, c._id ∈ c.parent_ids :=
  ⟨prSelf.1, prSelf.2, by decide, by decide⟩

/-- Claim C4 (amended): `refable` is read from the class-level referenceable
predicate with default `"optional"` when absent and is always in the closed
five-value set on success; if some structural class carries an out-of-set
value, construction fails fatally with no model returned; and construction
raises the unknown-referenceable error only for a class that carries an
out-of-set value.  (The error raised when some class is bad need not be the
unknown-referenceable one: another class's fatal range error can come
first.) -/
theorem refable_validation (compact : String → String) (g : Graph) :
    (∀ es cs, build_all compact g = .ok (es, cs) → ∀ c ∈ cs,
      c.refable = (value g c._id SPDXS_referenceable).getD ("optional") ∧
      c.refable ∈ refable_values) ∧
    ((∃ cls ∈ class_iris g,
        (value g cls SPDXS_referenceable).getD ("optional") ∉ refable_values) →
      ∃ err, build_all compact g = .error err) ∧
    (∀ cls v, build_all compact g = .error (.unknownReferenceable cls v) →
      cls ∈ class_iris g ∧
      v = (value g cls SPDXS_referenceable).getD ("optional") ∧
      v ∉ refable_values) := by
  refine ⟨?_, ?_, ?_⟩
  · intro es cs h c hc
    obtain ⟨_, h1, h2, _, _⟩ := build_all_mem_class compact g es cs h c hc
    exact ⟨h1, h2⟩
  · rintro ⟨cls, hcls, hbad⟩
    have herr := build_class_bad_refable compact g (enum_iris g) (class_iris g)
      cls hbad
    obtain ⟨e2, he2⟩ := build_classes_error_of_mem compact g _ _
      (class_iris g) cls _ hcls herr
    refine ⟨e2, ?_⟩
    unfold build_all
    rw [he2]
  · intro cls v h
    unfold build_all at h
    cases hbc : build_classes compact g (enum_iris g) (class_iris g)
        (class_iris g) with
    | ok cs0 =>
      rw [hbc] at h
      simp at h
    | error err =>
      rw [hbc] at h
      have herr : err = .unknownReferenceable cls v := Except.error.inj h
      obtain ⟨c2, hc2, hbc2⟩ := build_classes_error_mem compact g _ _ _ err hbc
      rw [herr] at hbc2
      rcases build_class_error compact g _ _ c2 _ hbc2 with ⟨heq, hbad⟩ | hshape
      · have h1 : cls = c2 := by injection heq
        have h2 : v = (value g c2 SPDXS_referenceable).getD ("optional") := by
          injection heq
        subst h1
        exact ⟨hc2, h2, h2 ▸ hbad⟩
      · rcases hshape with ⟨pr, rid, heq⟩ | ⟨pr, heq⟩
        · exact absurd heq (by simp)
        · exact absurd heq (by simp)

/-- Witness for C4 at a concrete input. -/
theorem refable_validation_w :
    build_all cmpId gB = .ok (prB.1, prB.2) ∧
    (∀ c ∈ prB.2,
      c.refable = (value gB c._id SPDXS_referenceable).getD ("optional") ∧
      c.refable ∈ refable_values) :=
  ⟨by decide, (refable_validation cmpId gB).1 prB.1 prB.2 (by decide)⟩

/-- Counterexample for C4 as stated: on `gMR` construction aborts with the
fatal missing-range error although every class's referenceable value is in
the closed set — so construction failing fatally is not equivalent to some
class carrying an out-of-set referenceable value. -/
theorem refable_validation_cex :
    build_all cmpId gMR = .error (.missingRange ("p")) ∧
    (∀ cls ∈ class_iris gMR,
      (value gMR cls SPDXS_referenceable).getD ("optional") ∈ refable_values) :=
  ⟨by decide, by decide⟩

/-- Claim C5: after construction, `derived_ids` is a precise inverse of
`parent_ids` — `D._id ∈ C.parent_ids` iff `C._id ∈ D.derived_ids` — and every
class's `derived_ids` is sorted ascending. -/
theorem derived_ids_inverse (compact : String → String) (g : Graph)
    (hg : g.Nodup) (es : List Enum) (cs : List Class)
    (h : build_all compact g = .ok (es, cs)) :
    (∀ C ∈ cs, ∀ D ∈ cs, (D._id ∈ C.parent_ids ↔ C._id ∈ D.derived_ids)) ∧
    (∀ C ∈ cs, List.Sorted (fun a b : String => a ≤ b) C.derived_ids) := by
  obtain ⟨cs0, hbc, hes, hcs⟩ := build_all_ok compact g es cs h
  have hids : cs0.map (fun k => k._id) = class_iris g :=
    build_classes_ids compact g _ _ _ cs0 hbc
  have hnd0 : (cs0.map fun k => k._id).Nodup := by
    rw [hids]
    exact class_iris_nodup g hg
  have hinj := List.inj_on_of_nodup_map hnd0
  constructor
  · intro C hC D hD
    rw [hcs, mem_sort_classes, mem_add_derived] at hC hD
    obtain ⟨C0, hC0, hCeq⟩ := hC
    obtain ⟨D0, hD0, hDeq⟩ := hD
    have hCid : C._id = C0._id := by rw [← hCeq]
    have hCpar : C.parent_ids = C0.parent_ids := by rw [← hCeq]
    have hDid : D._id = D0._id := by rw [← hDeq]
    have hDder : D.derived_ids = sort_strings (derived_for cs0 D0._id) := by
      rw [← hDeq]
    rw [hCid, hCpar, hDid, hDder, mem_sort_strings, derived_for_mem]
    constructor
    · intro hmem
      exact ⟨C0, hC0, rfl, hmem⟩
    · rintro ⟨c, hc, hcid, hpp⟩
      have hcC : c = C0 := hinj hc hC0 hcid
      rw [← hcC]
      exact hpp
  · intro C hC
    rw [hcs, mem_sort_classes, mem_add_derived] at hC
    obtain ⟨C0, hC0, hCeq⟩ := hC
    have hCder : C.derived_ids = sort_strings (derived_for cs0 C0._id) := by
      rw [← hCeq]
    rw [hCder]
    exact sort_strings_sorted _

/-- Witness for C5 at a concrete input. -/
theorem derived_ids_inverse_w :
    (gB.Nodup ∧ build_all cmpId gB = .ok (prB.1, prB.2)) ∧
    ((∀ C ∈ prB.2, ∀ D ∈ prB.2,
      (D._id ∈ C.parent_ids ↔ C._id ∈ D.derived_ids)) ∧
    (∀ C ∈ prB.2, List.Sorted (fun a b : String => a ≤ b) C.derived_ids)) :=
  ⟨⟨by decide, by decide⟩,
    derived_ids_inverse cmpId gB (by decide) prB.1 prB.2 (by decide)⟩

end Shacl2code
